import Mathlib

/-!
Verification of the hash-sharded file-backed key/value store (`library.py`):
the FNV-1a digest, the digest-division addressing scheme (`Hash`), the
per-bucket index format and allocator (`Index`), and the directory-tree
store (`Dictionary`).

Modelling conventions:
* Python byte strings are `List Nat` (one `Nat` per byte); Python `str`
  values are represented by their UTF-8 byte sequences, so the
  `encode`/`decode` pairs in the source collapse to the identity.
* Filesystem paths are lists of path segments (`List Bytes`); the
  filesystem itself is an association list from paths to file contents.
* Exceptions are modelled with `Option`/explicit outcome types; a state
  mutation that happens before an exception is raised is kept in the
  returned state, matching the source's observable behaviour.
* Machine integers do not occur: Python integers are unbounded, and the
  FNV code reduces with an explicit mask `(2^64)-1`, kept as written.
-/

/-- A Python byte string: one `Nat` per byte. -/
abbrev Bytes := List Nat

/-- A filesystem path, as the list of path segments below some root. -/
abbrev FsPath := List Bytes

namespace HKP

/-! ### Byte-level helpers shared by the index format -/

/-- Prepend a byte onto the first piece of a piece list (starting a new
piece when there is none). -/
def consHead (c : Nat) : List Bytes → List Bytes
  | [] => [[c]]
  | l :: ls => (c :: l) :: ls

/-- Split a byte stream into lines, each keeping its trailing newline
(byte 10), as Python's `readlines` does; a trailing fragment without a
newline becomes a final line. -/
def splitLines : Bytes → List Bytes
  | [] => []
  | c :: rest =>
    if c = 10 then [10] :: splitLines rest
    else consHead c (splitLines rest)

/-- Python `bytes.split(b'\n')`: split on newline bytes, dropping the
separators; always returns at least one (possibly empty) piece. -/
def splitNl : Bytes → List Bytes
  | [] => [[]]
  | c :: rest =>
    if c = 10 then [] :: splitNl rest
    else consHead c (splitNl rest)

/-- Python `b'\n\t'.join(pieces)`. -/
def joinNlTab : List Bytes → Bytes
  | [] => []
  | [s] => s
  | s :: rest => s ++ 10 :: 9 :: joinNlTab rest

/-- The `indent` default argument of `Index.store`:
`b''.join((b'\t', b'\n\t'.join(x.split(b'\n')), b'\n'))`. -/
def indentKey (k : Bytes) : Bytes :=
  9 :: joinNlTab (splitNl k) ++ [10]

/-! ### Decimal and hexadecimal rendering, and Python `int()` parsing -/

/-- Little-endian digits of `n` in base `base`, with explicit fuel so the
definition reduces by `rfl`/`decide`.  `digitsAux b f n` is correct
whenever `n ≤ f`. -/
def digitsAux (base : Nat) : Nat → Nat → List Nat
  | 0, _ => []
  | _ + 1, 0 => []
  | fuel + 1, n => (n % base) :: digitsAux base fuel (n / base)

/-- Python `str(n)` for a non-negative integer, as ASCII bytes. -/
def decRepr (n : Nat) : Bytes :=
  if n = 0 then [48] else ((digitsAux 10 n n).map (· + 48)).reverse

/-- ASCII bytes of one hexadecimal digit, lowercase as `hex()` renders. -/
def hexDigitByte (d : Nat) : Nat :=
  if d < 10 then d + 48 else d + 87

/-- Python `hex(n)[2:]` as produced by `FNV.hexdigest`: lowercase
hexadecimal without zero padding (so `0` renders as `"0"` and digests
with leading zero nibbles render shorter). -/
def hexRepr (n : Nat) : Bytes :=
  if n = 0 then [48] else ((digitsAux 16 n n).map hexDigitByte).reverse

/-- ASCII whitespace bytes stripped by Python `int()`. -/
def isSpaceByte (c : Nat) : Bool :=
  c = 32 || c = 9 || c = 10 || c = 13 || c = 11 || c = 12

/-- A decimal-digit byte. -/
def isDigitByte (c : Nat) : Bool :=
  48 ≤ c && c ≤ 57

/-- Strip leading and trailing ASCII whitespace. -/
def stripSpace (l : Bytes) : Bytes :=
  ((l.dropWhile isSpaceByte).reverse.dropWhile isSpaceByte).reverse

/-- Python `int(s)` on a byte string, for non-negative inputs: strips
surrounding whitespace, then requires a non-empty run of decimal digits.
(Signs and underscore separators, which `int()` also tolerates, never
occur in data written by the library and are modelled as failures.) -/
def pyInt (l : Bytes) : Option Nat :=
  let t := stripSpace l
  if t ≠ [] ∧ t.all isDigitByte then
    some (t.foldl (fun a c => a * 10 + (c - 48)) 0)
  else none

/-! ### FNV-1a (`class FNV`) -/

/-- The FNV-1a 64-bit offset basis, `FNV.__init__`'s default `I`. -/
def fnvInit : Nat := 0xcbf29ce484222325

/-- The FNV-1a 64-bit prime `P` of `FNV.update`. -/
def fnvPrime : Nat := 0x100000001b3

/-- The mask `C = (2**64)-1` of `FNV.update`. -/
def fnvMask : Nat := 2 ^ 64 - 1

/-- One loop iteration of `FNV.update`: `s ^= x; s *= P` (no reduction). -/
def fnvRawStep (s x : Nat) : Nat := (s ^^^ x) * fnvPrime

/-- `FNV.update(data)` from state `s`: fold the raw steps over the data
and mask once at the end (`self.state = s & C`). -/
def fnvUpdate (s : Nat) (data : Bytes) : Nat :=
  (data.foldl fnvRawStep s) &&& fnvMask

/-- `FNV.compute(data).state`. -/
def fnvCompute (data : Bytes) : Nat := fnvUpdate fnvInit data

/-- `FNV.compute(data).hexdigest()`. -/
def fnvHexdigest (data : Bytes) : Bytes := hexRepr (fnvCompute data)

/-- Modelled from the spec: "the standard 64-bit FNV-1a", which reduces
modulo `2^64` after every per-byte xor and multiply. -/
def fnvSpecStep (s x : Nat) : Nat := ((s ^^^ x) * fnvPrime) % 2 ^ 64

/-- Modelled from the spec: standard FNV-1a state after hashing `data`. -/
def fnvSpec (data : Bytes) : Nat := data.foldl fnvSpecStep fnvInit

/-! ### Hash (digest division addressing) -/

/-- `rangeN a n s`: `n` values starting at `a` stepping by `s`. -/
def rangeN : Nat → Nat → Nat → List Nat
  | _, 0, _ => []
  | a, n + 1, s => a :: rangeN (a + s) n s

/-- Python `range(start, stop, step)` for a positive step; `step = 0`
raises `ValueError` in Python and is modelled as the empty range. -/
def pyRange (start stop step : Nat) : List Nat :=
  if step = 0 then [] else rangeN start ((stop - start + (step - 1)) / step) step

/-- Python slice `digest[x:y]` on a byte string. -/
def pySlice (l : Bytes) (x y : Nat) : Bytes :=
  (l.drop x).take (y - x)

/-- `Hash.divide(digest, length, edge, step)`. -/
def divide (digest : Bytes) (length edge step : Nat) : List Bytes :=
  (List.zip (pyRange 0 length step) (pyRange step edge step)).map
    (fun p => pySlice digest p.1 p.2)

/-- A `Hash` instance restricted to the `fnv1a_64` algorithm (the only
implementation in this repository); fields as assigned by
`Hash.__init__`. -/
structure HashCfg where
  depth : Nat
  length : Nat
  step : Nat
  edge : Nat
  deriving DecidableEq, Repr

/-- `Hash.__init__(algorithm='fnv1a_64', depth, length)`: when `length`
is unspecified it defaults to the hex-digest length of the empty key;
`step = length // depth`, `edge = length + step`. -/
def mkHash (depth : Nat) (length : Option Nat) : HashCfg :=
  let L := length.getD (fnvHexdigest []).length
  ⟨depth, L, L / depth, L + L / depth⟩

/-- Python `bytes.lower()` on ASCII (applied to the digest in
`Hash.__call__`). -/
def asciiLower (l : Bytes) : Bytes :=
  l.map (fun c => if 65 ≤ c ∧ c ≤ 90 then c + 32 else c)

/-- `Hash.__call__(key)`: hex digest of the key, lowercased, divided. -/
def hashCall (cfg : HashCfg) (key : Bytes) : List Bytes :=
  divide (asciiLower (fnvHexdigest key)) cfg.length cfg.edge cfg.step

/-! ### Index: parsing (`Index.structure`, `Index.load`) -/

/-- The loop body of `Index.structure` once the leading entry line has
been taken: `entry` is the current unindented identifier line, `key` the
key bytes accumulated so far from indented lines. -/
def structureAux (entry key : Bytes) : List Bytes → List (Bytes × Bytes)
  | [] => [(key.dropLast, entry.dropLast)]
  | x :: xs =>
    if x.head? = some 9 then structureAux entry (key ++ x.drop 1) xs
    else (key.dropLast, entry.dropLast) :: structureAux x [] xs

/-- `Index.structure(seq)`: the indentation blocks of an index file as
`(key, entry)` pairs; the first yielded pair carries the counter line as
its entry. -/
def structureIdx : List Bytes → List (Bytes × Bytes)
  | [] => []
  | x :: xs => structureAux x [] xs

/-- In-memory `Index` state: the allocation counter and the
`_map` entry table in Python-dict insertion order. -/
structure Index where
  counter : Nat
  entries : List (Bytes × Bytes)
  deriving DecidableEq, Repr

/-- Python dict assignment `m[k] = v`: replace the value of an existing
binding in place, else append the new binding. -/
def mapSet : List (Bytes × Bytes) → Bytes → Bytes → List (Bytes × Bytes)
  | [], k, v => [(k, v)]
  | (k', v') :: rest, k, v =>
    if k' = k then (k', v) :: rest else (k', v') :: mapSet rest k v

/-- Python dict deletion `del m[k]` / `m.pop(k)`: drop the binding of
`k` (the first one; a dict never holds two). -/
def mapRemove : List (Bytes × Bytes) → Bytes → List (Bytes × Bytes)
  | [], _ => []
  | (k', v') :: rest, k =>
    if k' = k then rest else (k', v') :: mapRemove rest k

/-- Python dict lookup `m[k]` (`None` when absent). -/
def mapFind : List (Bytes × Bytes) → Bytes → Option Bytes
  | [], _ => none
  | (k', v') :: rest, k => if k' = k then some v' else mapFind rest k

/-- Python `dict(pairs)`: fold dict assignment over the pairs, so a
later duplicate key overwrites the earlier value in place. -/
def dictOfPairs (l : List (Bytes × Bytes)) : List (Bytes × Bytes) :=
  l.foldl (fun m p => mapSet m p.1 p.2) []

/-- The body of `Index.load` on the structured pairs: the first pair's
entry is the decimal counter (`int()` failure is modelled as `none`);
the remaining pairs populate the entry table.  No pairs at all yields
counter `0` and an empty table. -/
def loadParsed : List (Bytes × Bytes) → Option Index
  | [] => some ⟨0, []⟩
  | (_, c) :: rest => (pyInt c).map fun n => ⟨n, dictOfPairs rest⟩

/-- `Index.load(lines)`. -/
def loadIndex (lines : List Bytes) : Option Index :=
  loadParsed (structureIdx lines)

/-- `Index.store(write)`: the serialized bytes sent to `write` — the
decimal counter line, then `identifier \n indent(key)` per entry in
table order. -/
def storeBytes (idx : Index) : Bytes :=
  decRepr idx.counter ++ [10] ++
    (idx.entries.map (fun p => p.2 ++ [10] ++ indentKey p.1)).flatten

/-- Load an index from raw file bytes (`readlines` then `Index.load`). -/
def parseIndex (b : Bytes) : Option Index :=
  loadIndex (splitLines b)

/-! ### Index: allocation (`Index.allocate`, `insert`, `delete`) -/

/-- The default filename formatter `str` applied to the counter. -/
def defaultFilename (c : Nat) : Bytes := decRepr c

/-- `Index.insert(key, filename)`: advance the counter and bind the key
to `filename(counter)`, returning the new identifier. -/
def insertIdx (idx : Index) (k : Bytes) (filename : Nat → Bytes) :
    Bytes × Index :=
  let c := idx.counter + 1
  let r := filename c
  (r, ⟨c, mapSet idx.entries k r⟩)

/-- `Index.allocate(keys, filename)`: for each key in order, the
existing identifier if present, else a fresh insertion. -/
def allocateIdx (idx : Index) (keys : List Bytes) (filename : Nat → Bytes) :
    List Bytes × Index :=
  match keys with
  | [] => ([], idx)
  | k :: rest =>
    match mapFind idx.entries k with
    | some v =>
      let (vs, idx') := allocateIdx idx rest filename
      (v :: vs, idx')
    | none =>
      let (v, idx1) := insertIdx idx k filename
      let (vs, idx') := allocateIdx idx1 rest filename
      (v :: vs, idx')

/-- `Index.delete(key)`: pop the binding, returning the removed
identifier; `none` models the `KeyError` on an absent key (the state is
unchanged in that case, as `dict.pop` raises before mutating). -/
def deleteIdx (idx : Index) (k : Bytes) : Option (Bytes × Index) :=
  (mapFind idx.entries k).map fun v => (v, ⟨idx.counter, mapRemove idx.entries k⟩)

/-! ### Filesystem model

The file-system collaborator is an association list from paths to file
contents, supporting exactly the capability set the store consumes:
`exists`, read, write (creating or truncating), and `void` (delete).
Directory structure is implicit: the claims under verification observe
only file existence and contents. -/

/-- Filesystem state: paths bound to file contents. -/
abbrev FS := List (FsPath × Bytes)

/-- Contents of the file at `p`, if it exists. -/
def fsRead : FS → FsPath → Option Bytes
  | [], _ => none
  | (q, v) :: rest, p => if q = p then some v else fsRead rest p

/-- Remove every binding of `p`. -/
def fsErase : FS → FsPath → FS
  | [], _ => []
  | (q, v) :: rest, p =>
    if q = p then fsErase rest p else (q, v) :: fsErase rest p

/-- Write (create or truncate) the file at `p`. -/
def fsWrite (fs : FS) (p : FsPath) (v : Bytes) : FS :=
  (p, v) :: fsErase fs p

/-- `route.void()`: delete the file at `p`. -/
def fsVoid (fs : FS) (p : FsPath) : FS := fsErase fs p

/-- `route.exists()`. -/
def fsExists (fs : FS) (p : FsPath) : Bool := (fsRead fs p).isSome

/-! ### Dictionary -/

/-- The file name `'index'` of a bucket's index file, as bytes. -/
def indexName : Bytes := [105, 110, 100, 101, 120]

/-- A `Dictionary`: an addressing function (usually a `Hash` instance)
and the root directory.  The addressing is kept abstract exactly as the
source keeps it (`self.addressing` is an arbitrary callable returning
path segments). -/
structure Dict where
  addressing : Bytes → List Bytes
  directory : FsPath

/-- The bucket directory of a key: `self.directory.extend(path)`. -/
def bucketOf (d : Dict) (key : Bytes) : FsPath :=
  d.directory ++ d.addressing key

/-- The bucket's index file path `r / 'index'`. -/
def indexPathOf (d : Dict) (key : Bytes) : FsPath :=
  bucketOf d key ++ [indexName]

/-- `Dictionary._index(route)`: read the file and `Index.load` it.
(The source fronts this with an LRU cache; since every mutating path
re-persists the index at once, a fresh read is observationally the
same for the sequential operations modelled here.) -/
def loadFileIdx (fs : FS) (p : FsPath) : Option Index :=
  (fsRead fs p).bind parseIndex

/-- The tail of `Dictionary.route` once the bucket index file is known
to exist in `fs0`: load it, allocate the key's entry, persist the
index, and return the entry file's path with the new state. -/
def routeFrom (d : Dict) (fs0 : FS) (key : Bytes) (filename : Nat → Bytes) :
    Option (FsPath × FS) :=
  (loadFileIdx fs0 (indexPathOf d key)).map fun idx =>
    (bucketOf d key ++ [(allocateIdx idx [key] filename).1.headD []],
      fsWrite fs0 (indexPathOf d key) (storeBytes (allocateIdx idx [key] filename).2))

/-- `Dictionary.route(key, filename)`: create the bucket index file if
missing, load it, allocate the key's entry, persist the index, and
return the entry file's path together with the new filesystem state.
`none` models a raised exception (unparsable index file). -/
def routeOp (d : Dict) (fs : FS) (key : Bytes) (filename : Nat → Bytes) :
    Option (FsPath × FS) :=
  routeFrom d
    (if fsExists fs (indexPathOf d key) then fs
     else fsWrite fs (indexPathOf d key) []) key filename

/-- `Dictionary.__setitem__(key, value)`: resolve the route and write
the value there. -/
def setitemOp (d : Dict) (fs : FS) (key value : Bytes) : Option FS :=
  (routeOp d fs key defaultFilename).map fun pr => fsWrite pr.2 pr.1 value

/-- `Dictionary.has_key(key)`: the index file must exist, contain the
key, and the referenced entry file must exist.  `none` models the
exception raised when the index file cannot be parsed. -/
def hasKeyOp (d : Dict) (fs : FS) (key : Bytes) : Option Bool :=
  if fsExists fs (indexPathOf d key) then
    match loadFileIdx fs (indexPathOf d key) with
    | none => none
    | some idx =>
      match mapFind idx.entries key with
      | none => some false
      | some e => some (fsExists fs (bucketOf d key ++ [e]))
  else some false

/-- Outcome of `Dictionary.__getitem__`. -/
inductive GetOutcome where
  | found (v : Bytes) (fs : FS)
  | keyError
  | exn
  deriving DecidableEq

/-- `Dictionary.__getitem__(key)`: `KeyError` when `has_key` is false,
else read the routed file (note the route call persists the index even
on this read path). -/
def getitemOp (d : Dict) (fs : FS) (key : Bytes) : GetOutcome :=
  match hasKeyOp d fs key with
  | none => .exn
  | some false => .keyError
  | some true =>
    match routeOp d fs key defaultFilename with
    | none => .exn
    | some (p, fs') =>
      match fsRead fs' p with
      | some v => .found v fs'
      | none => .exn

/-- `Dictionary.get(key, fallback)`: the fallback (state untouched) when
`has_key` is false, else the routed file's contents. -/
def getOp (d : Dict) (fs : FS) (key fallback : Bytes) :
    Option (Bytes × FS) :=
  match hasKeyOp d fs key with
  | none => none
  | some false => some (fallback, fs)
  | some true =>
    match routeOp d fs key defaultFilename with
    | none => none
    | some (p, fs') => (fsRead fs' p).map fun v => (v, fs')

/-- Outcome of `Dictionary.__delitem__`: success, the three `KeyError`
branches in source order, or a parse failure in `_index`. -/
inductive DelOutcome where
  | ok
  | errNoIndex
  | errNoKey
  | errNoFile
  | errParse
  deriving DecidableEq, Repr

/-- Whether a delete outcome is a raised `KeyError`. -/
def DelOutcome.isKeyError : DelOutcome → Bool
  | .errNoIndex | .errNoKey | .errNoFile => true
  | .ok | .errParse => false

/-- `Dictionary.__delitem__(key)`, returning the outcome together with
the (possibly mutated) filesystem: the index entry is removed and the
index rewritten *before* the entry file's existence is checked, so the
`errNoFile` failure leaves the index mutation committed. -/
def delitemOp (d : Dict) (fs : FS) (key : Bytes) : DelOutcome × FS :=
  if fsExists fs (indexPathOf d key) then
    match loadFileIdx fs (indexPathOf d key) with
    | none => (.errParse, fs)
    | some idx =>
      match mapFind idx.entries key with
      | none => (.errNoKey, fs)
      | some entry =>
        if fsExists (fsWrite fs (indexPathOf d key)
              (storeBytes ⟨idx.counter, mapRemove idx.entries key⟩))
            (bucketOf d key ++ [entry]) then
          (.ok, fsVoid (fsWrite fs (indexPathOf d key)
              (storeBytes ⟨idx.counter, mapRemove idx.entries key⟩))
            (bucketOf d key ++ [entry]))
        else (.errNoFile, fsWrite fs (indexPathOf d key)
            (storeBytes ⟨idx.counter, mapRemove idx.entries key⟩))
  else (.errNoIndex, fs)

/-! ### Derived predicates and operation traces -/

/-- Value of a little-endian digit list in base 10. -/
def valDigits (ds : List Nat) : Nat := ds.foldr (fun d r => d + 10 * r) 0

/-- The line block of one serialized entry. -/
def entryLines (p : Bytes × Bytes) : List Bytes :=
  (p.2 ++ [10]) :: (splitNl p.1).map (fun s => 9 :: s ++ [10])

/-- An identifier as the library itself generates them: a non-empty
string of decimal digits. -/
def goodId (v : Bytes) : Bool :=
  decide (v ≠ []) && v.all isDigitByte

/-- Every identifier in the entry table is well formed. -/
def goodIdx (idx : Index) : Bool :=
  idx.entries.all (fun p => goodId p.2)

/-- The bucket's index file loads to a given good index. -/
def StoredGood (d : Dict) (fs : FS) (key : Bytes) (idx : Index) : Prop :=
  fsRead fs (indexPathOf d key) = some (storeBytes idx) ∧
  goodIdx idx = true ∧ (idx.entries.map Prod.fst).Nodup

/-- The bucket-state hypothesis for the mapping-law claims: if the
bucket's index file exists at all, it parses and all its identifiers
are well formed (as every file the library itself writes is). -/
def loadOkB (d : Dict) (fs : FS) (key : Bytes) : Bool :=
  match fsRead fs (indexPathOf d key) with
  | none => true
  | some b =>
    match parseIndex b with
    | none => false
    | some idx => goodIdx idx

/-- The weaker hypothesis used for `has_key`/`delete` claims: if the
bucket's index file exists, it parses. -/
def loadableB (d : Dict) (fs : FS) (key : Bytes) : Bool :=
  match fsRead fs (indexPathOf d key) with
  | none => true
  | some b => (parseIndex b).isSome

/-- The public mutating/serializing operations of `Index`, with the
default `str` filename formatter. -/
inductive IdxOp where
  | alloc (keys : List Bytes)
  | ins (k : Bytes)
  | del (k : Bytes)
  | persist
  | load (lines : List Bytes)

/-- Whether the operation is a `load`. -/
def IdxOp.isLoad : IdxOp → Bool
  | .load _ => true
  | _ => false

/-- Apply one `Index` operation.  `store` (`persist`) does not change
the state; a failing `delete` or `load` raises before mutating and so
leaves the state unchanged. -/
def applyOp (idx : Index) : IdxOp → Index
  | .alloc keys => (allocateIdx idx keys defaultFilename).2
  | .ins k => (insertIdx idx k defaultFilename).2
  | .del k =>
    match deleteIdx idx k with
    | some pr => pr.2
    | none => idx
  | .persist => idx
  | .load lines => (loadIndex lines).getD idx

/-- Run a sequence of `Index` operations. -/
def execOps (idx : Index) : List IdxOp → Index
  | [] => idx
  | o :: os => execOps (applyOp idx o) os

/-- An entry is well formed for a counter value: its identifier is the
canonical decimal rendering of some value the counter has reached. -/
def entryOkB (counter : Nat) (p : Bytes × Bytes) : Bool :=
  match pyInt p.2 with
  | some c => decide (c ≤ counter) && decide (p.2 = decRepr c)
  | none => false

/-- The `Index` invariant: every identifier in the table was produced
by a counter increment, i.e. is the decimal rendering of a value at
most the current counter. -/
def idxInvB (idx : Index) : Bool := idx.entries.all (entryOkB idx.counter)

/-- A concrete Dictionary used by concrete evaluations: constant
addressing into the single bucket `a`, rooted at the filesystem root. -/
def dSample : Dict := ⟨fun _ => [[97]], []⟩

/-! ### Lemmas: decimal rendering round trip -/


theorem digitsAux_zero (b f : Nat) : digitsAux b f 0 = [] := by
  cases f <;> rfl

theorem digitsAux_val : ∀ f n, n ≤ f → valDigits (digitsAux 10 f n) = n := by
  intro f
  induction f with
  | zero =>
    intro n h
    have hn : n = 0 := Nat.le_zero.mp h
    subst hn; rfl
  | succ f ih =>
    intro n h
    match n with
    | 0 => rfl
    | n + 1 =>
      have hdiv : (n + 1) / 10 ≤ f := by
        have := Nat.div_lt_self (Nat.succ_pos n) (by norm_num : 1 < 10)
        omega
      show valDigits ((n + 1) % 10 :: digitsAux 10 f ((n + 1) / 10)) = n + 1
      unfold valDigits
      rw [List.foldr_cons]
      have := ih ((n + 1) / 10) hdiv
      unfold valDigits at this
      rw [this]
      exact Nat.mod_add_div (n + 1) 10

theorem digitsAux_lt : ∀ f n, ∀ d ∈ digitsAux 10 f n, d < 10 := by
  intro f
  induction f with
  | zero => intro n d hd; simp [digitsAux] at hd
  | succ f ih =>
    intro n d hd
    match n with
    | 0 => simp [digitsAux] at hd
    | n + 1 =>
      simp only [digitsAux, List.mem_cons] at hd
      rcases hd with h | h
      · subst h; exact Nat.mod_lt _ (by norm_num)
      · exact ih _ _ h

theorem digitsAux_ne_nil (f n : Nat) (hf : n ≤ f) (hn : 0 < n) :
    digitsAux 10 f n ≠ [] := by
  match f, n with
  | 0, _ => omega
  | _ + 1, 0 => omega
  | f + 1, n + 1 => simp [digitsAux]

theorem decRepr_digits (n : Nat) : ∀ c ∈ decRepr n, isDigitByte c = true := by
  intro c hc
  unfold decRepr at hc
  split at hc
  · simp at hc; subst hc; decide
  · simp only [List.mem_reverse, List.mem_map] at hc
    obtain ⟨d, hd, rfl⟩ := hc
    have := digitsAux_lt n n d hd
    simp [isDigitByte]; omega

theorem decRepr_ne_nil (n : Nat) : decRepr n ≠ [] := by
  unfold decRepr
  split
  · simp
  · next h =>
    simp only [ne_eq, List.reverse_eq_nil_iff, List.map_eq_nil_iff]
    exact digitsAux_ne_nil n n (Nat.le_refl n) (Nat.pos_of_ne_zero h)

theorem isDigit_not_space (c : Nat) (h : isDigitByte c = true) :
    isSpaceByte c = false := by
  simp only [isDigitByte, Bool.and_eq_true, decide_eq_true_eq] at h
  simp only [isSpaceByte, Bool.or_eq_false_iff, decide_eq_false_iff_not]
  omega

theorem dropWhile_eq_self_of_false (p : Nat → Bool) (l : Bytes)
    (h : ∀ c ∈ l, p c = false) : l.dropWhile p = l := by
  cases l with
  | nil => rfl
  | cons a l =>
    rw [List.dropWhile_cons]
    simp [h a (by simp)]

theorem stripSpace_eq_self (l : Bytes) (h : ∀ c ∈ l, isSpaceByte c = false) :
    stripSpace l = l := by
  unfold stripSpace
  rw [dropWhile_eq_self_of_false _ _ h,
      dropWhile_eq_self_of_false _ _ (fun c hc => h c (List.mem_reverse.mp hc)),
      List.reverse_reverse]

theorem foldl_decimal (ds : List Nat) :
    ∀ a, List.foldl (fun a d => a * 10 + d) a ds.reverse =
      a * 10 ^ ds.length + valDigits ds := by
  induction ds with
  | nil => intro a; simp [valDigits]
  | cons d ds ih =>
    intro a
    rw [List.reverse_cons, List.foldl_append]
    simp only [List.foldl_cons, List.foldl_nil]
    rw [ih a]
    show (a * 10 ^ ds.length + valDigits ds) * 10 + d =
      a * 10 ^ (ds.length + 1) + valDigits (d :: ds)
    unfold valDigits
    rw [List.foldr_cons]
    show (a * 10 ^ ds.length + valDigits ds) * 10 + d =
      a * 10 ^ (ds.length + 1) + (d + 10 * valDigits ds)
    rw [pow_succ]
    ring

theorem pyInt_decRepr (n : Nat) : pyInt (decRepr n) = some n := by
  have hdig := decRepr_digits n
  have hstrip : stripSpace (decRepr n) = decRepr n :=
    stripSpace_eq_self _ (fun c hc => isDigit_not_space c (hdig c hc))
  unfold pyInt
  simp only [hstrip]
  rw [if_pos ⟨decRepr_ne_nil n, List.all_eq_true.mpr (fun c hc => hdig c hc)⟩]
  congr 1
  by_cases hz : n = 0
  · subst hz; rfl
  · unfold decRepr
    rw [if_neg hz]
    rw [← List.map_reverse, List.foldl_map]
    have : List.foldl (fun a d => a * 10 + (d + 48 - 48)) 0 (digitsAux 10 n n).reverse =
        List.foldl (fun a d => a * 10 + d) 0 (digitsAux 10 n n).reverse := rfl
    rw [this, foldl_decimal]
    simp only [Nat.zero_mul, Nat.zero_add]
    exact digitsAux_val n n (Nat.le_refl n)

theorem decRepr_injective {a b : Nat} (h : decRepr a = decRepr b) : a = b := by
  have ha := pyInt_decRepr a
  have hb := pyInt_decRepr b
  rw [h, hb] at ha
  exact (Option.some.injEq _ _).mp ha.symm

/-! ### Lemmas: line splitting and the index text format -/

theorem consHead_ne_nil (c : Nat) (l : List Bytes) : consHead c l ≠ [] := by
  cases l <;> simp [consHead]

theorem splitLines_cons (c : Nat) (rest : Bytes) :
    splitLines (c :: rest) =
      if c = 10 then [10] :: splitLines rest else consHead c (splitLines rest) := rfl

theorem splitNl_cons (c : Nat) (rest : Bytes) :
    splitNl (c :: rest) =
      if c = 10 then [] :: splitNl rest else consHead c (splitNl rest) := rfl

theorem splitLines_line (l : Bytes) (rest : Bytes) (h : (10 : Nat) ∉ l) :
    splitLines (l ++ 10 :: rest) = (l ++ [10]) :: splitLines rest := by
  induction l with
  | nil => simp [splitLines_cons]
  | cons c l ih =>
    have hc : c ≠ 10 := fun hc => h (hc ▸ List.mem_cons_self c l)
    have hl : (10 : Nat) ∉ l := fun hl => h (List.mem_cons_of_mem c hl)
    show splitLines (c :: (l ++ 10 :: rest)) = ((c :: l) ++ [10]) :: splitLines rest
    rw [splitLines_cons, if_neg hc, ih hl]
    rfl

theorem splitNl_ne_nil (k : Bytes) : splitNl k ≠ [] := by
  induction k with
  | nil => simp [splitNl]
  | cons c k ih =>
    rw [splitNl_cons]
    split
    · simp
    · exact consHead_ne_nil c (splitNl k)

theorem splitNl_no_newline (k : Bytes) : ∀ s ∈ splitNl k, (10 : Nat) ∉ s := by
  induction k with
  | nil => intro s hs; simp [splitNl] at hs; simp [hs]
  | cons c k ih =>
    intro s hs
    rw [splitNl_cons] at hs
    by_cases hc : c = 10
    · rw [if_pos hc] at hs
      rcases List.mem_cons.mp hs with h | h
      · simp [h]
      · exact ih s h
    · rw [if_neg hc] at hs
      match h : splitNl k, ih with
      | [], _ => exact absurd h (splitNl_ne_nil k)
      | l :: ls, ih =>
        rw [h] at hs
        simp only [consHead, List.mem_cons] at hs
        rcases hs with h' | h'
        · subst h'
          intro hmem
          rcases List.mem_cons.mp hmem with h'' | h''
          · exact hc h''.symm
          · exact ih l (h ▸ List.mem_cons_self l ls) h''
        · exact ih s (h ▸ List.mem_cons_of_mem l h')

theorem joinNl_splitNl (k : Bytes) :
    ((splitNl k).map (fun s => s ++ [10])).flatten = k ++ [10] := by
  induction k with
  | nil => rfl
  | cons c k ih =>
    rw [splitNl_cons]
    by_cases hc : c = 10
    · rw [if_pos hc]
      simp only [List.map_cons, List.flatten_cons, List.nil_append]
      rw [ih, hc]
      rfl
    · rw [if_neg hc]
      match h : splitNl k with
      | [] => exact absurd h (splitNl_ne_nil k)
      | l :: ls =>
        rw [h] at ih
        simp only [consHead, List.map_cons, List.flatten_cons] at ih ⊢
        exact congrArg (List.cons c) ih

theorem indentKey_eq_flatten (k : Bytes) :
    indentKey k = ((splitNl k).map (fun s => 9 :: s ++ [10])).flatten := by
  unfold indentKey
  have : ∀ (segs : List Bytes), segs ≠ [] →
      9 :: joinNlTab segs ++ [10] = (segs.map (fun s => 9 :: s ++ [10])).flatten := by
    intro segs
    induction segs with
    | nil => intro h; exact absurd rfl h
    | cons s rest ih =>
      intro _
      match rest, ih with
      | [], _ => simp [joinNlTab]
      | r :: rs, ih =>
        have := ih (by simp)
        simp only [joinNlTab, List.map_cons, List.flatten_cons] at this ⊢
        rw [← this]
        simp
  exact this (splitNl k) (splitNl_ne_nil k)

theorem splitLines_tabLines (segs : List Bytes) (rest : Bytes)
    (h : ∀ s ∈ segs, (10 : Nat) ∉ s) :
    splitLines ((segs.map (fun s => 9 :: s ++ [10])).flatten ++ rest) =
      segs.map (fun s => 9 :: s ++ [10]) ++ splitLines rest := by
  induction segs with
  | nil => simp
  | cons s segs ih =>
    have h10 : (10 : Nat) ∉ (9 : Nat) :: s := by
      intro hm
      rcases List.mem_cons.mp hm with h' | h'
      · omega
      · exact h s (List.mem_cons_self s segs) h'
    have harg : ((s :: segs).map (fun s => 9 :: s ++ [10])).flatten ++ rest =
        ((9 : Nat) :: s) ++ 10 :: ((segs.map (fun s => 9 :: s ++ [10])).flatten ++ rest) := by
      simp
    rw [harg, splitLines_line _ _ h10, ih (fun t ht => h t (List.mem_cons_of_mem s ht))]
    simp

/-! ### Lemmas: parsing the serialized index -/


theorem splitLines_blocks (entries : List (Bytes × Bytes))
    (hids : ∀ p ∈ entries, (10 : Nat) ∉ p.2) :
    splitLines ((entries.map (fun p => p.2 ++ [10] ++ indentKey p.1)).flatten) =
      (entries.map entryLines).flatten := by
  induction entries with
  | nil => rfl
  | cons p rest ih =>
    have hid : (10 : Nat) ∉ p.2 := hids p (List.mem_cons_self p rest)
    have harg : ((p :: rest).map (fun p => p.2 ++ [10] ++ indentKey p.1)).flatten =
        p.2 ++ 10 :: (indentKey p.1 ++ (rest.map (fun p => p.2 ++ [10] ++ indentKey p.1)).flatten) := by
      simp
    rw [harg, splitLines_line _ _ hid]
    rw [indentKey_eq_flatten, splitLines_tabLines _ _ (splitNl_no_newline p.1),
        ih (fun q hq => hids q (List.mem_cons_of_mem p hq))]
    simp [entryLines]

theorem structureAux_cons (e key x : Bytes) (xs : List Bytes) :
    structureAux e key (x :: xs) =
      if x.head? = some 9 then structureAux e (key ++ x.drop 1) xs
      else (key.dropLast, e.dropLast) :: structureAux x [] xs := rfl

theorem structureAux_keyLines (segs : List Bytes) :
    ∀ (e key : Bytes) (ls : List Bytes),
      structureAux e key (segs.map (fun s => 9 :: s ++ [10]) ++ ls) =
        structureAux e (key ++ ((segs.map (fun s => s ++ [10])).flatten)) ls := by
  induction segs with
  | nil => intro e key ls; simp
  | cons s segs ih =>
    intro e key ls
    show structureAux e key (((9 : Nat) :: (s ++ [10])) :: (segs.map (fun s => 9 :: s ++ [10]) ++ ls)) = _
    rw [structureAux_cons, if_pos (by simp)]
    have hdrop : ((9 : Nat) :: (s ++ [10])).drop 1 = s ++ [10] := rfl
    rw [hdrop, ih]
    congr 1
    simp

theorem structureAux_blocks (entries : List (Bytes × Bytes))
    (hids : ∀ p ∈ entries, p.2.head? ≠ some 9) :
    ∀ (e key : Bytes),
      structureAux e key ((entries.map entryLines).flatten) =
        (key.dropLast, e.dropLast) :: entries := by
  induction entries with
  | nil => intro e key; rfl
  | cons p rest ih =>
    intro e key
    have hhead : ((p.2 ++ [10]).head? = some 9) = False := by
      have hp := hids p (List.mem_cons_self p rest)
      cases h2 : p.2 with
      | nil => simp
      | cons c cs =>
        simp only [List.cons_append, List.head?_cons, Option.some.injEq, eq_iff_iff,
          iff_false]
        intro hc
        exact hp (by rw [h2, List.head?_cons, hc])
    have harg : ((p :: rest).map entryLines).flatten =
        (p.2 ++ [10]) :: ((splitNl p.1).map (fun s => 9 :: s ++ [10]) ++
          (rest.map entryLines).flatten) := by
      simp [entryLines]
    rw [harg, structureAux_cons, if_neg (by rw [hhead]; exact False.elim)]
    rw [structureAux_keyLines, joinNl_splitNl,
        ih (fun q hq => hids q (List.mem_cons_of_mem p hq))]
    simp

/-! ### Lemmas: dict operations and key distinctness -/

theorem mem_mapSet (m : List (Bytes × Bytes)) (k v : Bytes) :
    ∀ p ∈ mapSet m k v, p ∈ m ∨ p = (k, v) := by
  induction m with
  | nil => intro p hp; simp [mapSet] at hp; simp [hp]
  | cons q m ih =>
    intro p hp
    obtain ⟨k', v'⟩ := q
    unfold mapSet at hp
    split at hp
    · next hq =>
      rcases List.mem_cons.mp hp with h | h
      · right
        rw [h, hq]
      · exact Or.inl (List.mem_cons_of_mem _ h)
    · rcases List.mem_cons.mp hp with h | h
      · exact Or.inl (h ▸ List.mem_cons_self _ m)
      · rcases ih p h with h' | h'
        · exact Or.inl (List.mem_cons_of_mem _ h')
        · exact Or.inr h'

theorem mapSet_keys_mem (m : List (Bytes × Bytes)) (k v : Bytes)
    (h : k ∈ m.map Prod.fst) :
    (mapSet m k v).map Prod.fst = m.map Prod.fst := by
  induction m with
  | nil => simp at h
  | cons q m ih =>
    obtain ⟨k', v'⟩ := q
    rw [List.map_cons] at h
    unfold mapSet
    split
    · next hq => simp
    · next hq =>
      simp only [List.map_cons]
      rw [ih]
      rcases List.mem_cons.mp h with h' | h'
      · exact absurd h'.symm hq
      · exact h'

theorem mapSet_keys_not_mem (m : List (Bytes × Bytes)) (k v : Bytes)
    (h : k ∉ m.map Prod.fst) :
    (mapSet m k v).map Prod.fst = m.map Prod.fst ++ [k] := by
  induction m with
  | nil => rfl
  | cons q m ih =>
    unfold mapSet
    split
    · next hq => exact absurd (by simp [hq]) h
    · next hq =>
      simp only [List.map_cons, List.cons_append]
      rw [ih (fun hm => h (by simp [hm]))]

theorem mapSet_nodup (m : List (Bytes × Bytes)) (k v : Bytes)
    (h : (m.map Prod.fst).Nodup) : ((mapSet m k v).map Prod.fst).Nodup := by
  by_cases hk : k ∈ m.map Prod.fst
  · rwa [mapSet_keys_mem m k v hk]
  · rw [mapSet_keys_not_mem m k v hk]
    simp only [List.nodup_append, List.nodup_cons]
    exact ⟨h, by simp, by simpa [List.disjoint_singleton] using hk⟩

theorem mapSet_append (m : List (Bytes × Bytes)) (k v : Bytes)
    (h : k ∉ m.map Prod.fst) : mapSet m k v = m ++ [(k, v)] := by
  induction m with
  | nil => rfl
  | cons q m ih =>
    unfold mapSet
    split
    · next hq => exact absurd (by simp [hq]) h
    · next hq =>
      rw [ih (fun hm => h (by simp [hm]))]
      rfl

theorem mapFind_mapSet_self (m : List (Bytes × Bytes)) (k v : Bytes) :
    mapFind (mapSet m k v) k = some v := by
  induction m with
  | nil => simp [mapSet, mapFind]
  | cons q m ih =>
    unfold mapSet
    split
    · next hq => simp [mapFind, hq]
    · next hq => simp [mapFind, hq, ih]

theorem mapFind_some_mem (m : List (Bytes × Bytes)) (k v : Bytes)
    (h : mapFind m k = some v) : (k, v) ∈ m := by
  induction m with
  | nil => simp [mapFind] at h
  | cons q m ih =>
    obtain ⟨k', v'⟩ := q
    unfold mapFind at h
    split at h
    · next hq =>
      have hv : v' = v := by simpa using h
      rw [← hq, ← hv]
      exact List.mem_cons_self _ m
    · exact List.mem_cons_of_mem _ (ih h)

theorem mapFind_eq_none (m : List (Bytes × Bytes)) (k : Bytes)
    (h : k ∉ m.map Prod.fst) : mapFind m k = none := by
  induction m with
  | nil => rfl
  | cons q m ih =>
    unfold mapFind
    rw [if_neg (fun hq => h (by simp [hq]))]
    exact ih (fun hm => h (by simp [hm]))

theorem mapRemove_sublist (m : List (Bytes × Bytes)) (k : Bytes) :
    (mapRemove m k).Sublist m := by
  induction m with
  | nil => simp [mapRemove]
  | cons q m ih =>
    unfold mapRemove
    split
    · exact List.sublist_cons_of_sublist q (List.Sublist.refl m)
    · exact List.Sublist.cons₂ q ih

theorem mapRemove_nodup (m : List (Bytes × Bytes)) (k : Bytes)
    (h : (m.map Prod.fst).Nodup) : ((mapRemove m k).map Prod.fst).Nodup :=
  List.Nodup.sublist (List.Sublist.map Prod.fst (mapRemove_sublist m k)) h

theorem mapFind_mapRemove_self (m : List (Bytes × Bytes)) (k : Bytes)
    (h : (m.map Prod.fst).Nodup) : mapFind (mapRemove m k) k = none := by
  induction m with
  | nil => rfl
  | cons q m ih =>
    unfold mapRemove
    simp only [List.map_cons, List.nodup_cons] at h
    split
    · next hq => exact mapFind_eq_none m k (hq ▸ h.1)
    · next hq =>
      unfold mapFind
      rw [if_neg hq]
      exact ih h.2

theorem dictOfPairs_eq_self (l : List (Bytes × Bytes))
    (h : (l.map Prod.fst).Nodup) : dictOfPairs l = l := by
  have main : ∀ (l acc : List (Bytes × Bytes)), (l.map Prod.fst).Nodup →
      (∀ p ∈ l, p.1 ∉ acc.map Prod.fst) →
      l.foldl (fun m p => mapSet m p.1 p.2) acc = acc ++ l := by
    intro l
    induction l with
    | nil => intro acc _ _; simp
    | cons p l ih =>
      intro acc hnd hacc
      simp only [List.foldl_cons]
      rw [mapSet_append acc p.1 p.2 (hacc p (List.mem_cons_self p l))]
      simp only [List.map_cons, List.nodup_cons] at hnd
      rw [ih (acc ++ [p]) hnd.2]
      · simp
      · intro q hq
        simp only [List.map_append, List.mem_append]
        rintro (h' | h')
        · exact hacc q (List.mem_cons_of_mem p hq) h'
        · simp only [List.map_cons, List.map_nil, List.mem_singleton] at h'
          exact hnd.1 (h' ▸ List.mem_map_of_mem Prod.fst hq)
  simpa using main l [] h (by simp)

theorem dictOfPairs_nodup (l : List (Bytes × Bytes)) :
    ((dictOfPairs l).map Prod.fst).Nodup := by
  have main : ∀ (l acc : List (Bytes × Bytes)), (acc.map Prod.fst).Nodup →
      ((l.foldl (fun m p => mapSet m p.1 p.2) acc).map Prod.fst).Nodup := by
    intro l
    induction l with
    | nil => intro acc h; simpa using h
    | cons p l ih =>
      intro acc h
      simp only [List.foldl_cons]
      exact ih _ (mapSet_nodup acc p.1 p.2 h)
  exact main l [] (by simp)

/-! ### The store/load round trip -/

theorem parse_store_roundtrip (c : Nat) (entries : List (Bytes × Bytes))
    (hnd : (entries.map Prod.fst).Nodup)
    (hids : ∀ p ∈ entries, (10 : Nat) ∉ p.2 ∧ p.2.head? ≠ some 9) :
    parseIndex (storeBytes ⟨c, entries⟩) = some ⟨c, entries⟩ := by
  unfold parseIndex storeBytes
  have harg : decRepr c ++ [10] ++
      (entries.map (fun p => p.2 ++ [10] ++ indentKey p.1)).flatten =
      decRepr c ++ 10 :: (entries.map (fun p => p.2 ++ [10] ++ indentKey p.1)).flatten := by
    simp
  rw [harg, splitLines_line _ _ (fun hm => by
    have := decRepr_digits c 10 hm
    simp [isDigitByte] at this)]
  rw [splitLines_blocks entries (fun p hp => (hids p hp).1)]
  unfold loadIndex
  have hsi : structureIdx ((decRepr c ++ [10]) :: (entries.map entryLines).flatten) =
      (([] : Bytes).dropLast, (decRepr c ++ [10]).dropLast) :: entries := by
    show structureAux (decRepr c ++ [10]) [] ((entries.map entryLines).flatten) = _
    exact structureAux_blocks entries (fun p hp => (hids p hp).2) _ _
  rw [hsi]
  have hlp : loadParsed ((([] : Bytes).dropLast, (decRepr c ++ [10]).dropLast) :: entries) =
      (pyInt ((decRepr c ++ [10]).dropLast)).map fun n => Index.mk n (dictOfPairs entries) := rfl
  rw [hlp, List.dropLast_concat, pyInt_decRepr, dictOfPairs_eq_self entries hnd]
  rfl

/-! ### Lemmas: the filesystem model -/

theorem fsRead_cons (r : FsPath) (v : Bytes) (fs : FS) (p : FsPath) :
    fsRead ((r, v) :: fs) p = if r = p then some v else fsRead fs p := rfl

theorem fsRead_fsErase_ne (fs : FS) (p q : FsPath) (h : q ≠ p) :
    fsRead (fsErase fs p) q = fsRead fs q := by
  induction fs with
  | nil => rfl
  | cons e fs ih =>
    obtain ⟨r, v⟩ := e
    unfold fsErase
    split
    · next hr =>
      rw [ih, fsRead_cons, if_neg (fun hrq => h (hrq.symm.trans hr))]
    · rw [fsRead_cons, fsRead_cons]
      split
      · rfl
      · exact ih

theorem fsRead_fsWrite_self (fs : FS) (p : FsPath) (v : Bytes) :
    fsRead (fsWrite fs p v) p = some v := by
  show fsRead ((p, v) :: fsErase fs p) p = some v
  rw [fsRead_cons, if_pos rfl]

theorem fsRead_fsWrite_ne (fs : FS) (p q : FsPath) (v : Bytes) (h : q ≠ p) :
    fsRead (fsWrite fs p v) q = fsRead fs q := by
  show fsRead ((p, v) :: fsErase fs p) q = _
  rw [fsRead_cons, if_neg (fun hpq => h hpq.symm)]
  exact fsRead_fsErase_ne fs p q h

theorem fsExists_fsWrite_self (fs : FS) (p : FsPath) (v : Bytes) :
    fsExists (fsWrite fs p v) p = true := by
  unfold fsExists
  rw [fsRead_fsWrite_self]
  rfl

theorem fsExists_fsWrite_ne (fs : FS) (p q : FsPath) (v : Bytes) (h : q ≠ p) :
    fsExists (fsWrite fs p v) q = fsExists fs q := by
  unfold fsExists
  rw [fsRead_fsWrite_ne fs p q v h]

theorem fsRead_fsVoid_ne (fs : FS) (p q : FsPath) (h : q ≠ p) :
    fsRead (fsVoid fs p) q = fsRead fs q :=
  fsRead_fsErase_ne fs p q h

/-! ### Well-formed identifiers -/



theorem goodId_decRepr (n : Nat) : goodId (decRepr n) = true := by
  unfold goodId
  rw [Bool.and_eq_true, decide_eq_true_eq]
  exact ⟨decRepr_ne_nil n, List.all_eq_true.mpr (decRepr_digits n)⟩

theorem goodId_no_newline (v : Bytes) (h : goodId v = true) : (10 : Nat) ∉ v := by
  intro hm
  unfold goodId at h
  rw [Bool.and_eq_true, List.all_eq_true] at h
  have := h.2 10 hm
  simp [isDigitByte] at this

theorem goodId_head_ne_tab (v : Bytes) (h : goodId v = true) :
    v.head? ≠ some 9 := by
  intro hh
  unfold goodId at h
  rw [Bool.and_eq_true, List.all_eq_true] at h
  have h9 : (9 : Nat) ∈ v := by
    cases v with
    | nil => simp at hh
    | cons c cs =>
      simp only [List.head?_cons, Option.some.injEq] at hh
      rw [hh]
      exact List.mem_cons_self 9 cs
  have := h.2 9 h9
  simp [isDigitByte] at this

theorem goodId_ne_indexName (v : Bytes) (h : goodId v = true) : v ≠ indexName := by
  intro hv
  unfold goodId at h
  rw [Bool.and_eq_true, List.all_eq_true] at h
  have h105 : (105 : Nat) ∈ v := by
    rw [hv]
    unfold indexName
    exact List.mem_cons_self 105 _
  have := h.2 105 h105
  simp [isDigitByte] at this

theorem goodIdx_find (idx : Index) (k v : Bytes) (hg : goodIdx idx = true)
    (h : mapFind idx.entries k = some v) : goodId v = true := by
  unfold goodIdx at hg
  rw [List.all_eq_true] at hg
  exact hg (k, v) (mapFind_some_mem idx.entries k v h)

theorem goodIdx_roundtrip (idx : Index) (hg : goodIdx idx = true)
    (hnd : (idx.entries.map Prod.fst).Nodup) :
    parseIndex (storeBytes idx) = some idx := by
  obtain ⟨c, entries⟩ := idx
  apply parse_store_roundtrip c entries hnd
  intro p hp
  unfold goodIdx at hg
  rw [List.all_eq_true] at hg
  have := hg p hp
  exact ⟨goodId_no_newline p.2 this, goodId_head_ne_tab p.2 this⟩

theorem pathExt_ne (r : FsPath) (a b : Bytes) (h : a ≠ b) :
    r ++ [a] ≠ r ++ [b] := by
  intro he
  exact h (by simpa using List.append_cancel_left he)

/-! ### Lemmas: FNV masking (claim C10 support) -/

theorem xor_mod_two_pow (a x n : Nat) :
    ((a % 2 ^ n) ^^^ x) % 2 ^ n = (a ^^^ x) % 2 ^ n := by
  apply Nat.eq_of_testBit_eq
  intro i
  simp only [Nat.testBit_mod_two_pow, Nat.testBit_xor]
  by_cases hi : i < n
  · simp [hi]
  · simp [hi]

theorem foldl_raw_mod (data : Bytes) :
    ∀ s, (data.foldl fnvRawStep s) % 2 ^ 64 = data.foldl fnvSpecStep (s % 2 ^ 64) := by
  induction data with
  | nil => intro s; simp
  | cons x data ih =>
    intro s
    simp only [List.foldl_cons]
    rw [ih]
    have hstart : (fnvRawStep s x) % 2 ^ 64 = fnvSpecStep (s % 2 ^ 64) x := by
      show ((s ^^^ x) * fnvPrime) % 2 ^ 64 = (((s % 2 ^ 64) ^^^ x) * fnvPrime) % 2 ^ 64
      rw [Nat.mul_mod, ← xor_mod_two_pow s x 64, ← Nat.mul_mod]
    rw [hstart]

theorem fnvUpdate_eq_spec (data : Bytes) :
    fnvUpdate fnvInit data = data.foldl fnvSpecStep fnvInit := by
  unfold fnvUpdate fnvMask
  rw [Nat.and_pow_two_sub_one_eq_mod, foldl_raw_mod]
  have hinit : fnvInit % 2 ^ 64 = fnvInit := by rfl
  rw [hinit]

/-! ### Lemmas: single-key allocation and Dictionary state -/

theorem allocate_single_found (idx : Index) (k v : Bytes) (f : Nat → Bytes)
    (h : mapFind idx.entries k = some v) :
    allocateIdx idx [k] f = ([v], idx) := by
  unfold allocateIdx
  rw [h]
  rfl

theorem allocate_single_new (idx : Index) (k : Bytes) (f : Nat → Bytes)
    (h : mapFind idx.entries k = none) :
    allocateIdx idx [k] f =
      ([f (idx.counter + 1)],
        ⟨idx.counter + 1, mapSet idx.entries k (f (idx.counter + 1))⟩) := by
  unfold allocateIdx
  rw [h]
  rfl

theorem goodIdx_mapSet (idx : Index) (c : Nat) (k v : Bytes)
    (hg : goodIdx idx = true) (hv : goodId v = true) :
    goodIdx ⟨c, mapSet idx.entries k v⟩ = true := by
  unfold goodIdx at hg ⊢
  rw [List.all_eq_true] at hg ⊢
  intro p hp
  rcases mem_mapSet idx.entries k v p hp with h | h
  · exact hg p h
  · rw [h]
    exact hv

theorem goodIdx_mapRemove (idx : Index) (c : Nat) (k : Bytes)
    (hg : goodIdx idx = true) :
    goodIdx ⟨c, mapRemove idx.entries k⟩ = true := by
  unfold goodIdx at hg ⊢
  rw [List.all_eq_true] at hg ⊢
  intro p hp
  exact hg p (List.Sublist.mem hp (mapRemove_sublist idx.entries k))


theorem StoredGood.load (d : Dict) (fs : FS) (key : Bytes) (idx : Index)
    (h : StoredGood d fs key idx) :
    loadFileIdx fs (indexPathOf d key) = some idx := by
  unfold loadFileIdx
  rw [h.1]
  exact goodIdx_roundtrip idx h.2.1 h.2.2

theorem StoredGood.indexExists (d : Dict) (fs : FS) (key : Bytes) (idx : Index)
    (h : StoredGood d fs key idx) :
    fsExists fs (indexPathOf d key) = true := by
  unfold fsExists
  rw [h.1]
  rfl



theorem hasKey_of_storedGood (d : Dict) (fs : FS) (k : Bytes) (idx : Index)
    (h : StoredGood d fs k idx) :
    hasKeyOp d fs k =
      some (match mapFind idx.entries k with
            | none => false
            | some id => fsExists fs (bucketOf d k ++ [id])) := by
  unfold hasKeyOp
  simp only [h.indexExists, h.load, if_true]
  match hf : mapFind idx.entries k with
  | none => rfl
  | some id => rfl

theorem route_of_storedGood_found (d : Dict) (fs : FS) (k : Bytes) (idx : Index)
    (id : Bytes) (h : StoredGood d fs k idx)
    (hf : mapFind idx.entries k = some id) :
    routeOp d fs k defaultFilename =
      some (bucketOf d k ++ [id], fsWrite fs (indexPathOf d k) (storeBytes idx)) := by
  unfold routeOp routeFrom
  simp only [h.indexExists, if_true, h.load, Option.map_some']
  rw [allocate_single_found idx k id defaultFilename hf]
  rfl

theorem getitem_of_storedGood (d : Dict) (fs : FS) (k : Bytes) (idx : Index)
    (id v : Bytes) (h : StoredGood d fs k idx)
    (hf : mapFind idx.entries k = some id)
    (hgid : goodId id = true)
    (hval : fsRead fs (bucketOf d k ++ [id]) = some v) :
    getitemOp d fs k = .found v (fsWrite fs (indexPathOf d k) (storeBytes idx)) := by
  have hne : bucketOf d k ++ [id] ≠ indexPathOf d k := by
    unfold indexPathOf
    exact pathExt_ne _ _ _ (goodId_ne_indexName id hgid)
  have hhk : hasKeyOp d fs k = some true := by
    rw [hasKey_of_storedGood d fs k idx h, hf]
    show some (fsExists fs (bucketOf d k ++ [id])) = some true
    unfold fsExists
    rw [hval]
    rfl
  unfold getitemOp
  rw [hhk, route_of_storedGood_found d fs k idx id h hf]
  simp only [fsRead_fsWrite_ne _ _ _ _ hne, hval]

theorem delitem_of_storedGood (d : Dict) (fs : FS) (k : Bytes) (idx : Index)
    (id : Bytes) (h : StoredGood d fs k idx)
    (hf : mapFind idx.entries k = some id)
    (hgid : goodId id = true)
    (hex : fsExists fs (bucketOf d k ++ [id]) = true) :
    delitemOp d fs k =
      (.ok, fsVoid (fsWrite fs (indexPathOf d k)
          (storeBytes ⟨idx.counter, mapRemove idx.entries k⟩))
        (bucketOf d k ++ [id])) := by
  have hne : bucketOf d k ++ [id] ≠ indexPathOf d k := by
    unfold indexPathOf
    exact pathExt_ne _ _ _ (goodId_ne_indexName id hgid)
  unfold delitemOp
  simp only [h.indexExists, if_true, h.load, hf,
    fsExists_fsWrite_ne _ _ _ _ hne, hex]

theorem parseIndex_nodup (b : Bytes) (idx : Index)
    (h : parseIndex b = some idx) : (idx.entries.map Prod.fst).Nodup := by
  unfold parseIndex loadIndex at h
  match hs : structureIdx (splitLines b) with
  | [] =>
    rw [hs] at h
    have h' : some (⟨0, []⟩ : Index) = some idx := h
    have : idx = ⟨0, []⟩ := ((Option.some.injEq _ _).mp h').symm
    rw [this]
    simp
  | (k0, c0) :: rest =>
    rw [hs] at h
    have h' : (pyInt c0).map (fun n => Index.mk n (dictOfPairs rest)) = some idx := h
    match hp : pyInt c0 with
    | none => rw [hp] at h'; simp at h'
    | some n =>
      rw [hp, Option.map_some'] at h'
      have : idx = ⟨n, dictOfPairs rest⟩ := ((Option.some.injEq _ _).mp h').symm
      rw [this]
      exact dictOfPairs_nodup rest

theorem StoredGood.write_other (d : Dict) (fs : FS) (k : Bytes) (idx : Index)
    (q : FsPath) (w : Bytes) (h : StoredGood d fs k idx)
    (hq : q ≠ indexPathOf d k) :
    StoredGood d (fsWrite fs q w) k idx := by
  refine ⟨?_, h.2.1, h.2.2⟩
  rw [fsRead_fsWrite_ne _ _ _ _ (fun he => hq he.symm)]
  exact h.1

theorem routeFrom_write (d : Dict) (fs0 : FS) (k : Bytes) (idx0 : Index)
    (hload : loadFileIdx fs0 (indexPathOf d k) = some idx0)
    (hg : goodIdx idx0 = true) (hnd : (idx0.entries.map Prod.fst).Nodup) :
    ∃ (idx1 : Index) (id : Bytes),
      routeFrom d fs0 k defaultFilename =
        some (bucketOf d k ++ [id], fsWrite fs0 (indexPathOf d k) (storeBytes idx1)) ∧
      StoredGood d (fsWrite fs0 (indexPathOf d k) (storeBytes idx1)) k idx1 ∧
      mapFind idx1.entries k = some id ∧ goodId id = true := by
  match hf : mapFind idx0.entries k with
  | some id =>
    refine ⟨idx0, id, ?_, ?_, hf, goodIdx_find idx0 k id hg hf⟩
    · unfold routeFrom
      rw [hload, Option.map_some', allocate_single_found idx0 k id defaultFilename hf]
      rfl
    · exact ⟨fsRead_fsWrite_self _ _ _, hg, hnd⟩
  | none =>
    refine ⟨⟨idx0.counter + 1, mapSet idx0.entries k (decRepr (idx0.counter + 1))⟩,
      decRepr (idx0.counter + 1), ?_, ?_, ?_, goodId_decRepr _⟩
    · unfold routeFrom
      rw [hload, Option.map_some', allocate_single_new idx0 k defaultFilename hf]
      rfl
    · exact ⟨fsRead_fsWrite_self _ _ _,
        goodIdx_mapSet idx0 _ k _ hg (goodId_decRepr _), mapSet_nodup _ _ _ hnd⟩
    · exact mapFind_mapSet_self _ _ _

theorem setitem_spec (d : Dict) (fs : FS) (k v : Bytes)
    (h : loadOkB d fs k = true) :
    ∃ (idx1 : Index) (id : Bytes) (fs1 : FS),
      setitemOp d fs k v = some fs1 ∧
      StoredGood d fs1 k idx1 ∧
      mapFind idx1.entries k = some id ∧ goodId id = true ∧
      fsRead fs1 (bucketOf d k ++ [id]) = some v := by
  have base : ∀ fs0 : FS, loadFileIdx fs0 (indexPathOf d k) ≠ none →
      (∀ idx0, loadFileIdx fs0 (indexPathOf d k) = some idx0 → goodIdx idx0 = true) →
      ∃ (idx1 : Index) (id : Bytes) (fs1 : FS),
        (routeFrom d fs0 k defaultFilename).map
            (fun pr => fsWrite pr.2 pr.1 v) = some fs1 ∧
        StoredGood d fs1 k idx1 ∧
        mapFind idx1.entries k = some id ∧ goodId id = true ∧
        fsRead fs1 (bucketOf d k ++ [id]) = some v := by
    intro fs0 hne hgood
    match hl : loadFileIdx fs0 (indexPathOf d k) with
    | none => exact absurd hl hne
    | some idx0 =>
      have hg := hgood idx0 hl
      have hnd : (idx0.entries.map Prod.fst).Nodup := by
        unfold loadFileIdx at hl
        match hr : fsRead fs0 (indexPathOf d k) with
        | none => rw [hr] at hl; simp at hl
        | some b =>
          rw [hr, Option.some_bind] at hl
          exact parseIndex_nodup b idx0 hl
      obtain ⟨idx1, id, hroute, hsg, hfind, hid⟩ :=
        routeFrom_write d fs0 k idx0 hl hg hnd
      have hner : bucketOf d k ++ [id] ≠ indexPathOf d k := by
        unfold indexPathOf
        exact pathExt_ne _ _ _ (goodId_ne_indexName id hid)
      refine ⟨idx1, id,
        fsWrite (fsWrite fs0 (indexPathOf d k) (storeBytes idx1)) (bucketOf d k ++ [id]) v,
        ?_, ?_, hfind, hid, ?_⟩
      · rw [hroute]
        rfl
      · exact hsg.write_other d _ k idx1 _ v hner
      · exact fsRead_fsWrite_self _ _ _
  unfold setitemOp routeOp
  by_cases hex : fsExists fs (indexPathOf d k) = true
  · rw [if_pos hex]
    apply base fs
    · intro hl
      unfold loadFileIdx at hl
      unfold fsExists at hex
      match hr : fsRead fs (indexPathOf d k) with
      | none => rw [hr] at hex; simp at hex
      | some b =>
        rw [hr, Option.some_bind] at hl
        unfold loadOkB at h
        rw [hr] at h
        have h2 : (match parseIndex b with
          | none => false
          | some idx => goodIdx idx) = true := h
        rw [hl] at h2
        have h3 : false = true := h2
        simp at h3
    · intro idx0 hl
      unfold loadFileIdx at hl
      unfold loadOkB at h
      match hr : fsRead fs (indexPathOf d k) with
      | none => rw [hr] at hl; simp at hl
      | some b =>
        rw [hr, Option.some_bind] at hl
        rw [hr] at h
        have h2 : (match parseIndex b with
          | none => false
          | some idx => goodIdx idx) = true := h
        rw [hl] at h2
        exact h2
  · rw [if_neg hex]
    apply base (fsWrite fs (indexPathOf d k) [])
    · intro hl
      unfold loadFileIdx at hl
      rw [fsRead_fsWrite_self, Option.some_bind] at hl
      have hempty : parseIndex ([] : Bytes) = some ⟨0, []⟩ := rfl
      rw [hempty] at hl
      exact Option.noConfusion hl
    · intro idx0 hl
      unfold loadFileIdx at hl
      rw [fsRead_fsWrite_self, Option.some_bind] at hl
      have h2 : some (⟨0, []⟩ : Index) = some idx0 := hl
      have : idx0 = ⟨0, []⟩ := ((Option.some.injEq _ _).mp h2).symm
      rw [this]
      rfl

theorem hasKey_false_of_absent (d : Dict) (fs : FS) (k : Bytes) (idx : Index)
    (h : StoredGood d fs k idx) (hf : mapFind idx.entries k = none) :
    hasKeyOp d fs k = some false := by
  rw [hasKey_of_storedGood d fs k idx h, hf]

theorem getitem_keyError (d : Dict) (fs : FS) (k : Bytes)
    (h : hasKeyOp d fs k = some false) : getitemOp d fs k = .keyError := by
  unfold getitemOp
  rw [h]

theorem get_fallback (d : Dict) (fs : FS) (k fb : Bytes)
    (h : hasKeyOp d fs k = some false) : getOp d fs k fb = some (fb, fs) := by
  unfold getOp
  rw [h]

/-! ### Lemmas: digest division (claim C1 support) -/

theorem rangeN_succ (a n s : Nat) : rangeN a (n + 1) s = a :: rangeN (a + s) n s := rfl

theorem pyRange_exact (a d s : Nat) (hs : 0 < s) :
    pyRange a (a + s * d) s = rangeN a d s := by
  unfold pyRange
  rw [if_neg (Nat.pos_iff_ne_zero.mp hs)]
  congr 1
  have h1 : a + s * d - a = s * d := by omega
  rw [h1, Nat.mul_add_div hs, Nat.div_eq_of_lt (by omega)]
  omega

theorem seg_lengths (s : Nat) (hs : 0 < s) :
    ∀ (d a : Nat) (digest : Bytes), a + s * d ≤ digest.length →
      ((List.zip (rangeN a d s) (rangeN (a + s) d s)).map
        (fun p => pySlice digest p.1 p.2)).map List.length = List.replicate d s := by
  intro d
  induction d with
  | zero => intro a digest _; rfl
  | succ d ih =>
    intro a digest hlen
    have hmul : s * (d + 1) = s * d + s := by ring
    rw [rangeN_succ, rangeN_succ]
    simp only [List.zip_cons_cons, List.map_cons]
    have hhead : (pySlice digest a (a + s)).length = s := by
      unfold pySlice
      rw [List.length_take, List.length_drop]
      omega
    rw [hhead]
    have htail := ih (a + s) digest (by omega)
    rw [htail]
    rfl

/-! ### Index operation traces (claim C7 support) -/







theorem applyOp_del_found (idx : Index) (k v : Bytes)
    (hf : mapFind idx.entries k = some v) :
    applyOp idx (.del k) = ⟨idx.counter, mapRemove idx.entries k⟩ := by
  show (match deleteIdx idx k with | some pr => pr.2 | none => idx) = _
  unfold deleteIdx
  rw [hf, Option.map_some']

theorem applyOp_del_missing (idx : Index) (k : Bytes)
    (hf : mapFind idx.entries k = none) :
    applyOp idx (.del k) = idx := by
  show (match deleteIdx idx k with | some pr => pr.2 | none => idx) = _
  unfold deleteIdx
  rw [hf]
  rfl

theorem allocate_counter_le (keys : List Bytes) :
    ∀ (idx : Index) (f : Nat → Bytes),
      idx.counter ≤ (allocateIdx idx keys f).2.counter := by
  induction keys with
  | nil => intro idx f; exact Nat.le_refl _
  | cons k keys ih =>
    intro idx f
    unfold allocateIdx
    match hf : mapFind idx.entries k with
    | some v => exact ih idx f
    | none =>
      have := ih ⟨idx.counter + 1, mapSet idx.entries k (f (idx.counter + 1))⟩ f
      calc idx.counter ≤ idx.counter + 1 := Nat.le_succ _
        _ ≤ _ := this

theorem applyOp_counter_le (idx : Index) (o : IdxOp) (h : o.isLoad = false) :
    idx.counter ≤ (applyOp idx o).counter := by
  match o with
  | .alloc keys => exact allocate_counter_le keys idx defaultFilename
  | .ins k => exact Nat.le_succ _
  | .del k =>
    match hf : mapFind idx.entries k with
    | some v => rw [applyOp_del_found idx k v hf]
    | none => rw [applyOp_del_missing idx k hf]
  | .persist => exact Nat.le_refl _
  | .load lines => simp [IdxOp.isLoad] at h

theorem exec_counter_le (ops : List IdxOp) :
    ∀ (idx : Index), (∀ o ∈ ops, o.isLoad = false) →
      idx.counter ≤ (execOps idx ops).counter := by
  induction ops with
  | nil => intro idx _; exact Nat.le_refl _
  | cons o ops ih =>
    intro idx h
    calc idx.counter ≤ (applyOp idx o).counter :=
          applyOp_counter_le idx o (h o (List.mem_cons_self o ops))
      _ ≤ _ := ih _ (fun o' ho' => h o' (List.mem_cons_of_mem o ho'))

theorem allocate_new_ids (keys : List Bytes) :
    ∀ (idx : Index) (p : Bytes × Bytes),
      p ∈ (allocateIdx idx keys defaultFilename).2.entries →
      p ∈ idx.entries ∨ ∃ c', idx.counter < c' ∧ p.2 = decRepr c' := by
  induction keys with
  | nil => intro idx p hp; exact Or.inl hp
  | cons k keys ih =>
    intro idx p hp
    unfold allocateIdx at hp
    match hf : mapFind idx.entries k with
    | some v =>
      rw [hf] at hp
      exact ih idx p hp
    | none =>
      rw [hf] at hp
      rcases ih ⟨idx.counter + 1, mapSet idx.entries k (decRepr (idx.counter + 1))⟩ p hp
        with h | h
      · rcases mem_mapSet idx.entries k (decRepr (idx.counter + 1)) p h with h' | h'
        · exact Or.inl h'
        · exact Or.inr ⟨idx.counter + 1, Nat.lt_succ_self _, by rw [h']⟩
      · obtain ⟨c', hc', hp2⟩ := h
        have hc'' : idx.counter + 1 < c' := hc'
        exact Or.inr ⟨c', by omega, hp2⟩

theorem applyOp_new_ids (idx : Index) (o : IdxOp) (ho : o.isLoad = false)
    (p : Bytes × Bytes) (hp : p ∈ (applyOp idx o).entries) :
    p ∈ idx.entries ∨ ∃ c', idx.counter < c' ∧ p.2 = decRepr c' := by
  match o with
  | .alloc keys => exact allocate_new_ids keys idx p hp
  | .ins k =>
    rcases mem_mapSet idx.entries k (decRepr (idx.counter + 1)) p hp with h | h
    · exact Or.inl h
    · exact Or.inr ⟨idx.counter + 1, Nat.lt_succ_self _, by rw [h]⟩
  | .del k =>
    match hf : mapFind idx.entries k with
    | some v =>
      rw [applyOp_del_found idx k v hf] at hp
      exact Or.inl (List.Sublist.mem hp (mapRemove_sublist idx.entries k))
    | none =>
      rw [applyOp_del_missing idx k hf] at hp
      exact Or.inl hp
  | .persist => exact Or.inl hp
  | .load lines => simp [IdxOp.isLoad] at ho

theorem exec_no_recycle (ops : List IdxOp) :
    ∀ (t : Index) (base : Nat) (id : Bytes) (E : List (Bytes × Bytes)),
      (∀ o ∈ ops, o.isLoad = false) → base ≤ t.counter →
      (∀ c', id = decRepr c' → c' ≤ base) →
      (∀ p ∈ t.entries, p.2 = id → p ∈ E) →
      ∀ p ∈ (execOps t ops).entries, p.2 = id → p ∈ E := by
  induction ops with
  | nil => intro t base id E _ _ _ hset p hp hid; exact hset p hp hid
  | cons o ops ih =>
    intro t base id E hops hbase hbound hset
    apply ih (applyOp t o) base id E
      (fun o' ho' => hops o' (List.mem_cons_of_mem o ho'))
      (Nat.le_trans hbase (applyOp_counter_le t o (hops o (List.mem_cons_self o ops))))
      hbound
    intro p hp hid
    rcases applyOp_new_ids t o (hops o (List.mem_cons_self o ops)) p hp with h | h
    · exact hset p h hid
    · obtain ⟨c', hc', hp2⟩ := h
      have := hbound c' (by rw [← hid, hp2])
      omega

theorem loadable_some (d : Dict) (fs : FS) (k : Bytes)
    (h : loadableB d fs k = true) (hex : fsExists fs (indexPathOf d k) = true) :
    ∃ idx, loadFileIdx fs (indexPathOf d k) = some idx := by
  unfold loadableB at h
  unfold fsExists at hex
  match hr : fsRead fs (indexPathOf d k) with
  | none => rw [hr] at hex; simp at hex
  | some b =>
    rw [hr] at h
    have h2 : (parseIndex b).isSome = true := h
    match hp : parseIndex b with
    | none => rw [hp] at h2; simp at h2
    | some idx =>
      refine ⟨idx, ?_⟩
      unfold loadFileIdx
      rw [hr, Option.some_bind, hp]

/-! ## The claims -/

/-- C1 (counterexample): with the `fnv1a_64` algorithm, depth 3 and the
default digest-length 16 — a configuration with positive depth — the
empty key is divided into 4 segments, not 3, because the division
arithmetic does not tile when the depth does not divide the
digest-length.  So it is not the case that every positive-depth
configuration returns exactly `depth` segments totalling
`digest-length` characters. -/
theorem claim_C1_counterexample :
    ¬ ((hashCall (mkHash 3 none) []).length = 3 ∧
       ((hashCall (mkHash 3 none) []).map List.length).sum =
         (mkHash 3 none).length) := by
  decide

/-- C1 (amended): for every key and Hash configuration with positive
depth whose digest-length is positive and exactly divisible by the
depth, and whose digest for that key renders to exactly digest-length
hex characters (FNV digests are unpadded and can render shorter),
`Hash.__call__` returns exactly `depth` segments whose total character
length equals the configured digest-length. -/
theorem claim_C1_amended (dpt : Nat) (lenOpt : Option Nat) (key : Bytes)
    (hL : 0 < (mkHash dpt lenOpt).length)
    (hdiv : (mkHash dpt lenOpt).step * dpt = (mkHash dpt lenOpt).length)
    (hdig : (fnvHexdigest key).length = (mkHash dpt lenOpt).length) :
    (hashCall (mkHash dpt lenOpt) key).length = dpt ∧
      ((hashCall (mkHash dpt lenOpt) key).map List.length).sum =
        (mkHash dpt lenOpt).length := by
  have hs : 0 < (mkHash dpt lenOpt).step := by
    rcases Nat.eq_zero_or_pos (mkHash dpt lenOpt).step with h0 | h
    · rw [h0, Nat.zero_mul] at hdiv
      omega
    · exact h
  have hedge : (mkHash dpt lenOpt).edge =
      (mkHash dpt lenOpt).length + (mkHash dpt lenOpt).step := rfl
  have hlen : (asciiLower (fnvHexdigest key)).length = (mkHash dpt lenOpt).length := by
    unfold asciiLower
    rw [List.length_map]
    exact hdig
  have hr1 : pyRange 0 (mkHash dpt lenOpt).length (mkHash dpt lenOpt).step =
      rangeN 0 dpt (mkHash dpt lenOpt).step := by
    have h := pyRange_exact 0 dpt (mkHash dpt lenOpt).step hs
    rw [Nat.zero_add, hdiv] at h
    exact h
  have hr2 : pyRange (mkHash dpt lenOpt).step (mkHash dpt lenOpt).edge
        (mkHash dpt lenOpt).step =
      rangeN (mkHash dpt lenOpt).step dpt (mkHash dpt lenOpt).step := by
    have h := pyRange_exact (mkHash dpt lenOpt).step dpt (mkHash dpt lenOpt).step hs
    have he : (mkHash dpt lenOpt).step + (mkHash dpt lenOpt).step * dpt =
        (mkHash dpt lenOpt).edge := by
      rw [hedge, ← hdiv]
      ring
    rw [he] at h
    exact h
  have hseg := seg_lengths (mkHash dpt lenOpt).step hs dpt 0
    (asciiLower (fnvHexdigest key))
    (by rw [Nat.zero_add, hdiv, hlen])
  rw [Nat.zero_add] at hseg
  unfold hashCall divide
  rw [hr1, hr2]
  constructor
  · have hlen2 := congrArg List.length hseg
    rw [List.length_map, List.length_replicate] at hlen2
    exact hlen2
  · rw [hseg, List.sum_replicate, smul_eq_mul, Nat.mul_comm]
    exact hdiv

/-- C1 (witness): the amended statement holds concretely for the
default configuration (depth 2, digest-length 16) on the empty key. -/
theorem claim_C1_witness :
    (0 < (mkHash 2 none).length ∧
      (mkHash 2 none).step * 2 = (mkHash 2 none).length ∧
      (fnvHexdigest []).length = (mkHash 2 none).length) ∧
    ((hashCall (mkHash 2 none) []).length = 2 ∧
      ((hashCall (mkHash 2 none) []).map List.length).sum =
        (mkHash 2 none).length) :=
  ⟨⟨by decide, by decide, by decide⟩,
    claim_C1_amended 2 none [] (by decide) (by decide) (by decide)⟩

/-- C2 (counterexample): an Index whose single entry has the identifier
string `"a\nb"` (a legal value for the claim's arbitrary identifier
strings) does not survive a store/load round trip: the serialized form
parses back as two different entries, and the original `(key,
identifier)` pair is not among them. -/
theorem claim_C2_counterexample :
    parseIndex (storeBytes ⟨0, [([107], [97, 10, 98])]⟩) =
      some ⟨0, [([], [97]), ([107], [98])]⟩ ∧
    (([107], [97, 10, 98]) : Bytes × Bytes) ∉
      ([([], [97]), ([107], [98])] : List (Bytes × Bytes)) := by
  decide

/-- C2 (amended): for every counter value and every finite entry table
(distinct keys, keys may contain line terminators) whose identifiers
are single-line strings that do not begin with a tab — as all
identifiers the library itself generates are — `store` followed by
`load` reconstructs exactly the same entry table and counter value. -/
theorem claim_C2_store_load_roundtrip (c : Nat) (entries : List (Bytes × Bytes))
    (hnd : (entries.map Prod.fst).Nodup)
    (hids : ∀ p ∈ entries, (10 : Nat) ∉ p.2 ∧ p.2.head? ≠ some 9) :
    parseIndex (storeBytes ⟨c, entries⟩) = some ⟨c, entries⟩ :=
  parse_store_roundtrip c entries hnd hids

/-- C2 (witness): the round trip holds concretely for counter 3 and a
single entry whose key contains a line terminator. -/
theorem claim_C2_witness :
    ((([([107, 10, 108], [49])] : List (Bytes × Bytes)).map Prod.fst).Nodup ∧
      (∀ p ∈ ([([107, 10, 108], [49])] : List (Bytes × Bytes)),
        (10 : Nat) ∉ p.2 ∧ p.2.head? ≠ some 9)) ∧
    parseIndex (storeBytes ⟨3, [([107, 10, 108], [49])]⟩) =
      some ⟨3, [([107, 10, 108], [49])]⟩ :=
  ⟨⟨by decide, by decide⟩,
    claim_C2_store_load_roundtrip 3 [([107, 10, 108], [49])] (by decide) (by decide)⟩

/-- C6: `Index.allocate` is idempotent per key — for every Index state,
key and filename formatter, allocating the same key twice returns the
same identifier both times, and the counter is not advanced by the
second allocation. -/
theorem claim_C6_allocate_idempotent (idx : Index) (k : Bytes) (f : Nat → Bytes) :
    (allocateIdx (allocateIdx idx [k] f).2 [k] f).1 = (allocateIdx idx [k] f).1 ∧
    (allocateIdx (allocateIdx idx [k] f).2 [k] f).2.counter =
      (allocateIdx idx [k] f).2.counter := by
  match hf : mapFind idx.entries k with
  | some v =>
    have h1 : allocateIdx idx [k] f = ([v], idx) :=
      allocate_single_found idx k v f hf
    rw [h1]
    show (allocateIdx idx [k] f).1 = [v] ∧ (allocateIdx idx [k] f).2.counter = idx.counter
    rw [h1]
    exact ⟨rfl, rfl⟩
  | none =>
    have h1 := allocate_single_new idx k f hf
    rw [h1]
    have hf2 : mapFind (mapSet idx.entries k (f (idx.counter + 1))) k =
        some (f (idx.counter + 1)) := mapFind_mapSet_self _ _ _
    show (allocateIdx (⟨idx.counter + 1,
        mapSet idx.entries k (f (idx.counter + 1))⟩ : Index) [k] f).1 =
        [f (idx.counter + 1)] ∧ _
    rw [allocate_single_found _ k _ f hf2]
    exact ⟨rfl, rfl⟩

/-- C7 (counterexample): the counter is not monotonically non-decreasing
over every sequence of public operations — an `insert` followed by a
`load` of an index file with counter line `0` strictly decreases the
counter. -/
theorem claim_C7_counterexample :
    (execOps ⟨0, []⟩ [IdxOp.ins [107], IdxOp.load [[48, 10]]]).counter <
      (execOps ⟨0, []⟩ [IdxOp.ins [107]]).counter := by
  decide

/-- C7 (amended): excluding `load` (which replaces the whole state with
whatever the given lines say), for every Index satisfying the counter
invariant and every sequence of allocate/insert/delete/store operations
with the default decimal filename formatter, the counter is
monotonically non-decreasing — both step-wise and over the whole
sequence — and an identifier removed by delete is never assigned again:
any entry of a later state carrying the deleted identifier already
existed right after the delete. -/
theorem claim_C7_amended (s : Index) (k id : Bytes) (ops : List IdxOp)
    (hInv : idxInvB s = true) (hGet : mapFind s.entries k = some id)
    (hOps : ∀ o ∈ ops, o.isLoad = false) :
    (∀ (t : Index) (o : IdxOp), o.isLoad = false →
      t.counter ≤ (applyOp t o).counter) ∧
    (applyOp s (.del k)).counter ≤ (execOps (applyOp s (.del k)) ops).counter ∧
    (∀ p ∈ (execOps (applyOp s (.del k)) ops).entries,
      p.2 = id → p ∈ (applyOp s (.del k)).entries) := by
  have hdel : applyOp s (.del k) = ⟨s.counter, mapRemove s.entries k⟩ :=
    applyOp_del_found s k id hGet
  refine ⟨fun t o ho => applyOp_counter_le t o ho, exec_counter_le ops _ hOps, ?_⟩
  have hmem : (k, id) ∈ s.entries := mapFind_some_mem s.entries k id hGet
  have hok : entryOkB s.counter (k, id) = true := by
    unfold idxInvB at hInv
    rw [List.all_eq_true] at hInv
    exact hInv (k, id) hmem
  obtain ⟨c0, hc0le, hc0eq⟩ : ∃ c0, c0 ≤ s.counter ∧ id = decRepr c0 := by
    have hok2 : (match pyInt id with
      | some c => decide (c ≤ s.counter) && decide (id = decRepr c)
      | none => false) = true := hok
    match hp : pyInt id with
    | none => rw [hp] at hok2; simp at hok2
    | some c0 =>
      rw [hp, Bool.and_eq_true, decide_eq_true_eq, decide_eq_true_eq] at hok2
      exact ⟨c0, hok2.1, hok2.2⟩
  apply exec_no_recycle ops (applyOp s (.del k)) s.counter id _ hOps
  · rw [hdel]
  · intro c' hc'
    have : c' = c0 := decRepr_injective (by rw [← hc', ← hc0eq])
    omega
  · intro p hp _
    exact hp

/-- C7 (witness): the amended statement holds concretely for an Index
with counter 1 holding key `k` with identifier `"1"`, deleting `k` and
then inserting another key. -/
theorem claim_C7_witness :
    (idxInvB ⟨1, [([107], [49])]⟩ = true ∧
      mapFind (Index.mk 1 [([107], [49])]).entries [107] = some [49] ∧
      (∀ o ∈ [IdxOp.ins [108]], o.isLoad = false)) ∧
    ((∀ (t : Index) (o : IdxOp), o.isLoad = false →
        t.counter ≤ (applyOp t o).counter) ∧
      (applyOp ⟨1, [([107], [49])]⟩ (.del [107])).counter ≤
        (execOps (applyOp ⟨1, [([107], [49])]⟩ (.del [107])) [IdxOp.ins [108]]).counter ∧
      (∀ p ∈ (execOps (applyOp ⟨1, [([107], [49])]⟩ (.del [107])) [IdxOp.ins [108]]).entries,
        p.2 = [49] → p ∈ (applyOp ⟨1, [([107], [49])]⟩ (.del [107])).entries)) :=
  ⟨⟨by decide, by decide, by decide⟩,
    claim_C7_amended ⟨1, [([107], [49])]⟩ [107] [49] [IdxOp.ins [108]]
      (by decide) (by decide) (by decide)⟩

/-- C3: for every Dictionary (any addressing function and root), key and
value, starting from any filesystem whose bucket index — if present —
is a parsable index with library-generated (decimal) identifiers:
after `dict[k] = v`, `has_key(k)` is true and `dict[k]` returns `v`;
after a subsequent `del dict[k]`, `has_key(k)` is false, `dict[k]`
raises `KeyError`, and `dict.get(k, sentinel)` returns the sentinel. -/
theorem claim_C3_set_then_delete (d : Dict) (fs : FS) (k v fb : Bytes)
    (h : loadOkB d fs k = true) :
    ∃ fs1, setitemOp d fs k v = some fs1 ∧
      hasKeyOp d fs1 k = some true ∧
      (∃ fs2, getitemOp d fs1 k = .found v fs2) ∧
      ∃ fs3, delitemOp d fs1 k = (.ok, fs3) ∧
        hasKeyOp d fs3 k = some false ∧
        getitemOp d fs3 k = .keyError ∧
        getOp d fs3 k fb = some (fb, fs3) := by
  obtain ⟨idx1, id, fs1, hset, hsg, hfind, hgid, hval⟩ := setitem_spec d fs k v h
  have hex1 : fsExists fs1 (bucketOf d k ++ [id]) = true := by
    unfold fsExists
    rw [hval]
    rfl
  have hner : bucketOf d k ++ [id] ≠ indexPathOf d k := by
    unfold indexPathOf
    exact pathExt_ne _ _ _ (goodId_ne_indexName id hgid)
  refine ⟨fs1, hset, ?_, ?_, ?_⟩
  · rw [hasKey_of_storedGood d fs1 k idx1 hsg, hfind]
    show some (fsExists fs1 (bucketOf d k ++ [id])) = some true
    rw [hex1]
  · exact ⟨_, getitem_of_storedGood d fs1 k idx1 id v hsg hfind hgid hval⟩
  · have hdel := delitem_of_storedGood d fs1 k idx1 id hsg hfind hgid hex1
    have hsg3 : StoredGood d
        (fsVoid (fsWrite fs1 (indexPathOf d k)
            (storeBytes ⟨idx1.counter, mapRemove idx1.entries k⟩))
          (bucketOf d k ++ [id])) k
        ⟨idx1.counter, mapRemove idx1.entries k⟩ := by
      refine ⟨?_, goodIdx_mapRemove idx1 idx1.counter k hsg.2.1,
        mapRemove_nodup _ _ hsg.2.2⟩
      rw [fsRead_fsVoid_ne _ _ _ (Ne.symm hner), fsRead_fsWrite_self]
    have hk3 : hasKeyOp d
        (fsVoid (fsWrite fs1 (indexPathOf d k)
            (storeBytes ⟨idx1.counter, mapRemove idx1.entries k⟩))
          (bucketOf d k ++ [id])) k = some false :=
      hasKey_false_of_absent d _ k _ hsg3
        (mapFind_mapRemove_self idx1.entries k hsg.2.2)
    exact ⟨_, hdel, hk3, getitem_keyError d _ k hk3, get_fallback d _ k fb hk3⟩

/-- C3 (witness): the full set/has_key/get/delete scenario evaluated on
a fresh store with a concrete key and value. -/
theorem claim_C3_witness :
    loadOkB dSample [] [107] = true ∧
    (∃ fs1, setitemOp dSample [] [107] [118] = some fs1 ∧
      hasKeyOp dSample fs1 [107] = some true ∧
      (∃ fs2, getitemOp dSample fs1 [107] = .found [118] fs2) ∧
      ∃ fs3, delitemOp dSample fs1 [107] = (.ok, fs3) ∧
        hasKeyOp dSample fs3 [107] = some false ∧
        getitemOp dSample fs3 [107] = .keyError ∧
        getOp dSample fs3 [107] [120] = some ([120], fs3)) :=
  ⟨by decide, claim_C3_set_then_delete dSample [] [107] [118] [120] (by decide)⟩

/-- C4: for every Dictionary, filesystem whose bucket index (if present)
parses, and key, `__delitem__` raises `KeyError` exactly when the
bucket's index file is missing, the key is absent from the loaded
index, or the referenced entry file is missing; and in the
missing-file case the resulting filesystem already holds the rewritten
index with the entry removed — the index mutation is not rolled back. -/
theorem claim_C4_delete_semantics (d : Dict) (fs : FS) (k : Bytes)
    (h : loadableB d fs k = true) :
    ((delitemOp d fs k).1.isKeyError = true ↔
      fsExists fs (indexPathOf d k) = false ∨
      (∃ idx, loadFileIdx fs (indexPathOf d k) = some idx ∧
        mapFind idx.entries k = none) ∨
      (∃ idx id, loadFileIdx fs (indexPathOf d k) = some idx ∧
        mapFind idx.entries k = some id ∧
        fsExists fs (bucketOf d k ++ [id]) = false)) ∧
    ((delitemOp d fs k).1 = .errNoFile →
      ∃ idx id, loadFileIdx fs (indexPathOf d k) = some idx ∧
        mapFind idx.entries k = some id ∧
        (delitemOp d fs k).2 = fsWrite fs (indexPathOf d k)
          (storeBytes ⟨idx.counter, mapRemove idx.entries k⟩)) := by
  by_cases hex : fsExists fs (indexPathOf d k) = true
  · obtain ⟨idx, hl⟩ := loadable_some d fs k h hex
    match hf : mapFind idx.entries k with
    | none =>
      have hd : delitemOp d fs k = (.errNoKey, fs) := by
        unfold delitemOp
        simp only [hex, if_true, hl, hf]
      rw [hd]
      refine ⟨⟨fun _ => Or.inr (Or.inl ⟨idx, hl, hf⟩), fun _ => rfl⟩, ?_⟩
      intro habs
      exact absurd habs (by simp)
    | some id =>
      have hfse : fsExists (fsWrite fs (indexPathOf d k)
            (storeBytes ⟨idx.counter, mapRemove idx.entries k⟩))
          (bucketOf d k ++ [id]) = fsExists fs (bucketOf d k ++ [id]) := by
        by_cases he : bucketOf d k ++ [id] = indexPathOf d k
        · rw [he, fsExists_fsWrite_self, hex]
        · exact fsExists_fsWrite_ne _ _ _ _ he
      match hfile : fsExists fs (bucketOf d k ++ [id]) with
      | true =>
        have hd : delitemOp d fs k =
            (.ok, fsVoid (fsWrite fs (indexPathOf d k)
                (storeBytes ⟨idx.counter, mapRemove idx.entries k⟩))
              (bucketOf d k ++ [id])) := by
          unfold delitemOp
          simp only [hex, if_true, hl, hf, hfse, hfile]
        rw [hd]
        refine ⟨⟨fun habs => absurd habs (by simp [DelOutcome.isKeyError]), ?_⟩, ?_⟩
        · rintro (h1 | ⟨idx', hl', hf'⟩ | ⟨idx', id', hl', hf', he'⟩)
          · rw [hex] at h1
            exact absurd h1 (by simp)
          · have : idx' = idx := by
              rw [hl] at hl'
              exact (Option.some.injEq _ _).mp hl'.symm
            rw [this, hf] at hf'
            exact absurd hf' (by simp)
          · have h1 : idx' = idx := by
              rw [hl] at hl'
              exact (Option.some.injEq _ _).mp hl'.symm
            rw [h1, hf] at hf'
            have h2 : id' = id := (Option.some.injEq _ _).mp hf'.symm
            rw [h2, hfile] at he'
            exact absurd he' (by simp)
        · intro habs
          exact absurd habs (by simp)
      | false =>
        have hd : delitemOp d fs k =
            (.errNoFile, fsWrite fs (indexPathOf d k)
              (storeBytes ⟨idx.counter, mapRemove idx.entries k⟩)) := by
          unfold delitemOp
          simp only [hex, if_true, hl, hf, hfse, hfile]
          rfl
        rw [hd]
        exact ⟨⟨fun _ => Or.inr (Or.inr ⟨idx, id, hl, hf, hfile⟩), fun _ => rfl⟩,
          fun _ => ⟨idx, id, hl, hf, rfl⟩⟩
  · have hex0 : fsExists fs (indexPathOf d k) = false := by
      revert hex
      cases fsExists fs (indexPathOf d k) <;> simp
    have hd : delitemOp d fs k = (.errNoIndex, fs) := by
      unfold delitemOp
      rw [if_neg hex]
    rw [hd]
    refine ⟨⟨fun _ => Or.inl hex0, fun _ => rfl⟩, ?_⟩
    intro habs
    exact absurd habs (by simp)

/-- C4 (witness): a dangling bucket — index present and holding key `k`
with identifier `"1"`, but no backing entry file — makes delete fail
with `KeyError` after the index has been rewritten without the entry. -/
theorem claim_C4_witness :
    loadableB dSample
      [([[97], indexName], storeBytes ⟨1, [([107], [49])]⟩)] [107] = true ∧
    (((delitemOp dSample
        [([[97], indexName], storeBytes ⟨1, [([107], [49])]⟩)] [107]).1.isKeyError = true ↔
      fsExists [([[97], indexName], storeBytes ⟨1, [([107], [49])]⟩)]
        (indexPathOf dSample [107]) = false ∨
      (∃ idx, loadFileIdx [([[97], indexName], storeBytes ⟨1, [([107], [49])]⟩)]
          (indexPathOf dSample [107]) = some idx ∧
        mapFind idx.entries [107] = none) ∨
      (∃ idx id, loadFileIdx [([[97], indexName], storeBytes ⟨1, [([107], [49])]⟩)]
          (indexPathOf dSample [107]) = some idx ∧
        mapFind idx.entries [107] = some id ∧
        fsExists [([[97], indexName], storeBytes ⟨1, [([107], [49])]⟩)]
          (bucketOf dSample [107] ++ [id]) = false)) ∧
    ((delitemOp dSample
        [([[97], indexName], storeBytes ⟨1, [([107], [49])]⟩)] [107]).1 = .errNoFile →
      ∃ idx id, loadFileIdx [([[97], indexName], storeBytes ⟨1, [([107], [49])]⟩)]
          (indexPathOf dSample [107]) = some idx ∧
        mapFind idx.entries [107] = some id ∧
        (delitemOp dSample
            [([[97], indexName], storeBytes ⟨1, [([107], [49])]⟩)] [107]).2 =
          fsWrite [([[97], indexName], storeBytes ⟨1, [([107], [49])]⟩)]
            (indexPathOf dSample [107])
            (storeBytes ⟨idx.counter, mapRemove idx.entries [107]⟩))) :=
  ⟨by decide, claim_C4_delete_semantics dSample
    [([[97], indexName], storeBytes ⟨1, [([107], [49])]⟩)] [107] (by decide)⟩

/-- C5: evaluating the model at the failing input shows the defect —
on a fresh store, resolving a new key's route (the per-key body of
`Dictionary.allocate`) commits the index entry but never creates the
entry file, so the returned route is not backed by an existing file.
(Moreover `Dictionary.allocate` itself raises `NameError`: its
comprehension refers to the undefined name `key` instead of the loop
variable `k`.) -/
theorem claim_C5_allocate_no_backing_file :
    routeOp dSample [] [107] defaultFilename =
      some ([[97], [49]],
        [([[97], indexName], storeBytes ⟨1, [([107], [49])]⟩)]) ∧
    fsExists [([[97], indexName], storeBytes ⟨1, [([107], [49])]⟩)]
      [[97], [49]] = false ∧
    loadFileIdx [([[97], indexName], storeBytes ⟨1, [([107], [49])]⟩)]
      [[97], indexName] = some ⟨1, [([107], [49])]⟩ := by
  decide

/-- C8: for every Dictionary, filesystem whose bucket index (if present)
parses, and key, `has_key` returns a boolean — it never raises — and
that boolean is true exactly when the bucket's index file exists, the
key is present in the loaded index, and the entry file the index
references exists; in particular a dangling index entry yields false
rather than an error. -/
theorem claim_C8_hasKey (d : Dict) (fs : FS) (k : Bytes)
    (h : loadableB d fs k = true) :
    ∃ b, hasKeyOp d fs k = some b ∧
      (b = true ↔ fsExists fs (indexPathOf d k) = true ∧
        ∃ idx id, loadFileIdx fs (indexPathOf d k) = some idx ∧
          mapFind idx.entries k = some id ∧
          fsExists fs (bucketOf d k ++ [id]) = true) := by
  by_cases hex : fsExists fs (indexPathOf d k) = true
  · obtain ⟨idx, hl⟩ := loadable_some d fs k h hex
    match hf : mapFind idx.entries k with
    | none =>
      refine ⟨false, ?_, ?_⟩
      · unfold hasKeyOp
        simp only [hex, if_true, hl, hf]
      · constructor
        · intro habs
          exact absurd habs (by simp)
        · rintro ⟨_, idx', id', hl', hf', _⟩
          have : idx' = idx := by
            rw [hl] at hl'
            exact (Option.some.injEq _ _).mp hl'.symm
          rw [this, hf] at hf'
          exact absurd hf' (by simp)
    | some id =>
      refine ⟨fsExists fs (bucketOf d k ++ [id]), ?_, ?_⟩
      · unfold hasKeyOp
        simp only [hex, if_true, hl, hf]
      · constructor
        · intro hb
          exact ⟨hex, idx, id, hl, hf, hb⟩
        · rintro ⟨_, idx', id', hl', hf', he'⟩
          have h1 : idx' = idx := by
            rw [hl] at hl'
            exact (Option.some.injEq _ _).mp hl'.symm
          rw [h1, hf] at hf'
          have h2 : id' = id := (Option.some.injEq _ _).mp hf'.symm
          rw [← h2]
          exact he'
  · refine ⟨false, ?_, ?_⟩
    · unfold hasKeyOp
      rw [if_neg hex]
    · constructor
      · intro habs
        exact absurd habs (by simp)
      · rintro ⟨hex', _⟩
        exact absurd hex' hex

/-- C8 (witness): on the dangling bucket — index entry present, backing
file missing — `has_key` returns false instead of raising. -/
theorem claim_C8_witness :
    loadableB dSample
      [([[97], indexName], storeBytes ⟨1, [([107], [49])]⟩)] [107] = true ∧
    (∃ b, hasKeyOp dSample
        [([[97], indexName], storeBytes ⟨1, [([107], [49])]⟩)] [107] = some b ∧
      (b = true ↔ fsExists [([[97], indexName], storeBytes ⟨1, [([107], [49])]⟩)]
          (indexPathOf dSample [107]) = true ∧
        ∃ idx id, loadFileIdx [([[97], indexName], storeBytes ⟨1, [([107], [49])]⟩)]
            (indexPathOf dSample [107]) = some idx ∧
          mapFind idx.entries [107] = some id ∧
          fsExists [([[97], indexName], storeBytes ⟨1, [([107], [49])]⟩)]
            (bucketOf dSample [107] ++ [id]) = true)) :=
  ⟨by decide, claim_C8_hasKey dSample
    [([[97], indexName], storeBytes ⟨1, [([107], [49])]⟩)] [107] (by decide)⟩

/-- C9: the Hash address computation is deterministic — for every fixed
configuration, two evaluations on equal key byte strings produce
identical segment sequences (the computation is a pure function of the
configuration and the key bytes). -/
theorem claim_C9_deterministic (cfg : HashCfg) (k1 k2 : Bytes) (h : k1 = k2) :
    hashCall cfg k1 = hashCall cfg k2 := by
  rw [h]

/-- C9 (witness): concretely for the default configuration on the key
`"foo"`. -/
theorem claim_C9_witness :
    ([102, 111, 111] : Bytes) = [102, 111, 111] ∧
    hashCall (mkHash 2 none) [102, 111, 111] =
      hashCall (mkHash 2 none) [102, 111, 111] :=
  ⟨rfl, claim_C9_deterministic (mkHash 2 none) [102, 111, 111] [102, 111, 111] rfl⟩

/-- C10: for every input byte string, `FNV.update`'s strategy of masking
with `(2^64)-1` once after processing all bytes yields the same final
state as the standard 64-bit FNV-1a that reduces modulo `2^64` after
every per-byte xor and multiply, and consequently the reported hex
digest is the same. -/
theorem claim_C10_mask_once (data : Bytes) :
    fnvCompute data = fnvSpec data ∧
    fnvHexdigest data = hexRepr (fnvSpec data) :=
  ⟨fnvUpdate_eq_spec data, congrArg hexRepr (fnvUpdate_eq_spec data)⟩

end HKP
